import Mathlib

set_option maxRecDepth 100000

/-!
Verification model of the TheZ Cleaning Tool (src/Main.py): the three
cleaning pipelines (markup, script, stylesheet), the watermark appender,
the backup/log/write side effects and the directory dispatch.

Text is modelled as `List Char`.  Python string semantics are embedded
character by character: `str.splitlines`, `str.strip`, `str.replace`,
and the `re.sub` calls of the source are each given an executable
Lean counterpart, faithful to CPython behaviour on the character set
listed in `pySpaceChars` / `pyBreakChars`.
-/

/-- The characters of Python's `str.strip()` / regex `\s` whitespace class
(ASCII and Unicode code points up to U+3000). -/
def pySpaceChars : List Char :=
  [' ', '\t', '\n', '\x0b', '\x0c', '\r', '\x1c', '\x1d', '\x1e', '\x1f',
   '\x85', '\xa0', '\u1680', '\u2000', '\u2001', '\u2002', '\u2003', '\u2004',
   '\u2005', '\u2006', '\u2007', '\u2008', '\u2009', '\u200a', '\u2028',
   '\u2029', '\u202f', '\u205f', '\u3000']

/-- Whether `c` is Python whitespace (for `str.strip` and regex `\s`). -/
def isPySpace (c : Char) : Bool := pySpaceChars.contains c

/-- The line terminators of Python's `str.splitlines` (besides the two
character sequence CR LF, handled in `pySplitlines` itself). -/
def pyBreakChars : List Char :=
  ['\n', '\x0b', '\x0c', '\r', '\x1c', '\x1d', '\x1e', '\x85', '\u2028', '\u2029']

/-- Whether `c` terminates a line for `str.splitlines`. -/
def isLineBreak (c : Char) : Bool := pyBreakChars.contains c

/-- Python `str.splitlines()`: split at each terminator (CR LF counts as one),
terminators dropped, and no empty final piece for a trailing terminator. -/
def pySplitlines : List Char → List (List Char)
  | [] => []
  | c :: r =>
    if c = '\r' then
      match r with
      | [] => [[]]
      | c2 :: r2 => if c2 = '\n' then [] :: pySplitlines r2 else [] :: pySplitlines (c2 :: r2)
    else if isLineBreak c then [] :: pySplitlines r
    else match pySplitlines r with
      | [] => [[c]]
      | l :: ls => (c :: l) :: ls

/-- Python `str.strip()`: drop whitespace from both ends. -/
def pyStrip (s : List Char) : List Char :=
  ((s.dropWhile isPySpace).reverse.dropWhile isPySpace).reverse

/-- `"\n".join(pieces)`. -/
def joinNl (ls : List (List Char)) : List Char := List.intercalate ['\n'] ls

/-- The list comprehension `[line.strip() for line in s.splitlines() if line.strip()]`
shared by all three pipelines. -/
def stripLines (s : List Char) : List (List Char) :=
  ((pySplitlines s).map pyStrip).filter (fun l => !l.isEmpty)

/-- State machine for `re.sub(r"//.*?$", "", s, flags=re.MULTILINE)`:
in-comment state skips to the next LF (kept), outside state watches for `//`. -/
def rmLineGo : Bool → List Char → List Char
  | true, [] => []
  | true, c :: r => if c = '\n' then '\n' :: rmLineGo false r else rmLineGo true r
  | false, [] => []
  | false, [c] => [c]
  | false, c1 :: c2 :: r =>
    if c1 = '/' ∧ c2 = '/' then rmLineGo true r else c1 :: rmLineGo false (c2 :: r)

/-- `re.sub(r"//.*?$", "", s, flags=re.MULTILINE)`: delete from each `//` to
the end of its line. -/
def rmLineComments (s : List Char) : List Char := rmLineGo false s

/-- State machine for `re.sub(r"/\*.*?\*/", "", s, flags=re.DOTALL)`.  The
`some buf` state buffers (reversed) the raw text of a candidate comment since
its opening; on `*/` the buffer is dropped, at end of input an unclosed
candidate is emitted back verbatim (the regex finds no match there). -/
def rmBlockGo : Option (List Char) → List Char → List Char
  | none, [] => []
  | none, [c] => [c]
  | none, c1 :: c2 :: r =>
    if c1 = '/' ∧ c2 = '*' then rmBlockGo (some ['*', '/']) r
    else c1 :: rmBlockGo none (c2 :: r)
  | some buf, [] => buf.reverse
  | some buf, [c] => (c :: buf).reverse
  | some buf, c1 :: c2 :: r =>
    if c1 = '*' ∧ c2 = '/' then rmBlockGo none r
    else rmBlockGo (some (c1 :: buf)) (c2 :: r)

/-- `re.sub(r"/\*.*?\*/", "", s, flags=re.DOTALL)`: delete each `/*` up to the
nearest following `*/`, scanning left to right; an unclosed `/*` stays. -/
def rmBlockComments (s : List Char) : List Char := rmBlockGo none s

/-- State machine for `re.sub(r"\s+", " ", s)`: the flag records being inside
a whitespace run already replaced by one space. -/
def collapseWsGo : Bool → List Char → List Char
  | _, [] => []
  | b, c :: r =>
    if isPySpace c then
      if b then collapseWsGo true r else ' ' :: collapseWsGo true r
    else c :: collapseWsGo false r

/-- `re.sub(r"\s+", " ", s)`: each maximal whitespace run becomes one space. -/
def collapseWs (s : List Char) : List Char := collapseWsGo false s

/-- `s.replace("\n", "")`. -/
def removeNewlines (s : List Char) : List Char := s.filter (fun c => c != '\n')

/-- State machine for `re.sub(r"\n\s*\n", "\n", s)`.  The state holds, for a
candidate match opened at a LF: all whitespace consumed since the opener
(reversed), whether another LF was seen, and the whitespace consumed since the
last LF (reversed) — what greedy matching leaves outside the match. -/
def cnlGo : Option (List Char × Bool × List Char) → List Char → List Char
  | none, [] => []
  | none, c :: r => if c = '\n' then cnlGo (some ([], false, [])) r else c :: cnlGo none r
  | some (all, matched, since), [] =>
    '\n' :: (if matched then since.reverse else all.reverse)
  | some (all, matched, since), c :: r =>
    if c = '\n' then cnlGo (some (c :: all, true, [])) r
    else if isPySpace c then cnlGo (some (c :: all, matched, c :: since)) r
    else ('\n' :: (if matched then since.reverse else all.reverse)) ++ c :: cnlGo none r

/-- `re.sub(r"\n\s*\n", "\n", s)`: collapse a blank-line gap to one LF. -/
def collapseNlRuns (s : List Char) : List Char := cnlGo none s

/-- `s.replace("\n\n", "")`: delete non-overlapping LF LF pairs, left to right. -/
def compactRep : List Char → List Char
  | [] => []
  | [c] => [c]
  | c1 :: c2 :: r =>
    if c1 = '\n' ∧ c2 = '\n' then compactRep r else c1 :: compactRep (c2 :: r)

/-- `re.sub(r"(\})", r"\1\n", s)`: insert a LF after every closing brace. -/
def readIns : List Char → List Char
  | [] => []
  | c :: r => if c = '}' then c :: '\n' :: readIns r else c :: readIns r

/-- `s.replace("\t", "    ")`. -/
def tabExpand : List Char → List Char
  | [] => []
  | c :: r => if c = '\t' then ' ' :: ' ' :: ' ' :: ' ' :: tabExpand r else c :: tabExpand r

/-- The two values `clean_format` takes in the tool (`main` only ever sets
`"compact"` or `"readable"`). -/
inductive CleanFormat where
  | compact
  | readable
deriving DecidableEq

/-- The configuration record of `DEFAULT_CONFIG`, one immutable value per run
(the backup directory is fixed to `"backup"` below, as in the source). -/
structure CleaningConfig where
  clean_format : CleanFormat
  remove_comments : Bool
  remove_empty_lines : Bool
  normalize_indentation : Bool
  js_minify : Bool
  optimize_css : Bool
  dry_run : Bool

/-- The `WATERMARK` banner of src/Main.py, byte for byte. -/
def WATERMARK : List Char :=
  "\n/* \n    Cleaned by TheZ Cleaning Tool \n    Watermark: 'This file was processed by TheZ's Cleaning Tool'\n    For support and feedback, visit: https://discord.gg/zsGTqgnsmK \n    Version: 1.1\n*/\n".data

/-- `add_watermark`: prepend the banner to the content. -/
def add_watermark (content : List Char) : List Char := WATERMARK ++ content

/-- The content transformation of `clean_html` after the parser stage: the
text already serialized by `soup.prettify`, then the `remove_empty_lines`
filter, tab expansion, the format policy and the watermark (src/Main.py
lines 64-80). -/
def clean_html_content (cfg : CleaningConfig) (pretty : List Char) : List Char :=
  let s1 := if cfg.remove_empty_lines then joinNl (stripLines pretty) else pretty
  let s2 := if cfg.normalize_indentation then tabExpand s1 else s1
  let s3 :=
    match cfg.clean_format with
    | .compact => compactRep s2
    | .readable => readIns s2
  add_watermark s3

/-- The content transformation of `clean_js` (src/Main.py lines 98-119):
comment removal, unconditional blank-line stripping, optional minify, the
format policy and the watermark. -/
def clean_js_content (cfg : CleaningConfig) (s : List Char) : List Char :=
  let s1 := if cfg.remove_comments then rmBlockComments (rmLineComments s) else s
  let s2 := joinNl (stripLines s1)
  let s3 := if cfg.js_minify then removeNewlines (collapseWs s2) else s2
  let s4 :=
    match cfg.clean_format with
    | .compact => collapseNlRuns s3
    | .readable => readIns s3
  add_watermark s4

/-- The content transformation of `clean_css` (src/Main.py lines 136-154):
comment removal, the `optimize_css` placeholder (a `pass`, kept as the
identity on both branches), unconditional blank-line stripping, the format
policy and the watermark. -/
def clean_css_content (cfg : CleaningConfig) (s : List Char) : List Char :=
  let s1 := if cfg.remove_comments then rmBlockComments s else s
  let s2 := if cfg.optimize_css then s1 else s1
  let s3 := joinNl (stripLines s2)
  let s4 :=
    match cfg.clean_format with
    | .compact => compactRep s3
    | .readable => readIns s3
  add_watermark s4

/-- The state the tool mutates: the regular files (path, content), the backup
directory (backup path, content, newest first) and the append-only log. -/
structure FsState where
  files : List (List Char × List Char)
  backups : List (List Char × List Char)
  log : List (List Char)

/-- `os.path.basename`: the part of the path after the last slash. -/
def pyBasename (p : List Char) : List Char :=
  (p.reverse.takeWhile (fun c => c != '/')).reverse

/-- `os.path.join("backup", os.path.basename(p))`, with the source's fixed
`backup_directory`. -/
def backupPath (p : List Char) : List Char := "backup/".data ++ pyBasename p

/-- `log_message`: append one entry to the log file. -/
def log_message (msg : List Char) (st : FsState) : FsState :=
  { st with log := st.log ++ [msg] }

/-- `create_backup`: copy the file's bytes under its base name into the backup
directory (overwriting an older backup of the same base name) and log it. -/
def create_backup (p : List Char) (content : List Char) (st : FsState) : FsState :=
  log_message ("Backup created for ".data ++ p ++ " at ".data ++ backupPath p)
    { st with backups := (backupPath p, content) :: st.backups }

/-- Overwrite the content stored for path `p`. -/
def setFile (p v : List Char) (files : List (List Char × List Char)) :
    List (List Char × List Char) :=
  files.map (fun e => if e.1 = p then (e.1, v) else e)

/-- `clean_js` at the file level: backup, read, transform, then either the dry
run log entry or the overwrite plus log entry.  A path absent from the state
leaves it unchanged (the source would raise there; `clean_directory` only
passes paths that exist). -/
def clean_js (cfg : CleaningConfig) (p : List Char) (st : FsState) : FsState :=
  match st.files.lookup p with
  | none => st
  | some content =>
    let st1 := create_backup p content st
    let out := clean_js_content cfg content
    if cfg.dry_run then log_message ("Dry run: JS changes for ".data ++ p) st1
    else log_message ("JavaScript cleaned: ".data ++ p)
      { st1 with files := setFile p out st1.files }

/-- `clean_css` at the file level (same shape as `clean_js`). -/
def clean_css (cfg : CleaningConfig) (p : List Char) (st : FsState) : FsState :=
  match st.files.lookup p with
  | none => st
  | some content =>
    let st1 := create_backup p content st
    let out := clean_css_content cfg content
    if cfg.dry_run then log_message ("Dry run: CSS changes for ".data ++ p) st1
    else log_message ("CSS cleaned: ".data ++ p)
      { st1 with files := setFile p out st1.files }

/-- `clean_html` at the file level.  `soup` stands for the external
BeautifulSoup collaborator of src/Main.py lines 55-63 (parse, conditional
comment extraction, prettify); it is passed in as a parameter so every theorem
below holds for any behaviour of the parser. -/
def clean_html (soup : CleaningConfig → List Char → List Char)
    (cfg : CleaningConfig) (p : List Char) (st : FsState) : FsState :=
  match st.files.lookup p with
  | none => st
  | some content =>
    let st1 := create_backup p content st
    let out := clean_html_content cfg (soup cfg content)
    if cfg.dry_run then log_message ("Dry run: HTML changes for ".data ++ p) st1
    else log_message ("HTML cleaned: ".data ++ p)
      { st1 with files := setFile p out st1.files }

/-- Python `str.endswith`. -/
def pyEndswith (s suffix : List Char) : Bool := suffix.isSuffixOf s

/-- The per-file dispatch of `clean_directory` (src/Main.py lines 173-180):
`.html`, `.js` and `.css` files are cleaned, anything else is skipped. -/
def clean_directory_step (soup : CleaningConfig → List Char → List Char)
    (cfg : CleaningConfig) (p : List Char) (st : FsState) : FsState :=
  if pyEndswith p ".html".data then clean_html soup cfg p st
  else if pyEndswith p ".js".data then clean_js cfg p st
  else if pyEndswith p ".css".data then clean_css cfg p st
  else st

/-- `clean_directory`: the walk visits each file path in order and dispatches
on its extension. -/
def clean_directory (soup : CleaningConfig → List Char → List Char)
    (cfg : CleaningConfig) (paths : List (List Char)) (st : FsState) : FsState :=
  paths.foldl (fun st p => clean_directory_step soup cfg p st) st

/-- A node of the parsed markup tree, as BeautifulSoup represents it: element
with children, text string, or comment string.  Per the library's documented
behaviour a comment node stores the text strictly between the markers. -/
inductive HtmlNode where
  | element : List Char → List HtmlNode → HtmlNode
  | textStr : List Char → HtmlNode
  | comment : List Char → HtmlNode

/-- The predicate of the `find_all(string=lambda text: ...)` call in
`clean_html`: the string value starts with the four characters of the
comment opener. -/
def startsWithOpener (s : List Char) : Bool := "<!--".data.isPrefixOf s

/-- The effect of `for comment in soup.find_all(string=...): comment.extract()`:
every string node (text and comment nodes both are `NavigableString`s, hence
`str` instances) whose value satisfies the predicate is removed, everywhere in
the tree. -/
def extractMatching : List HtmlNode → List HtmlNode
  | [] => []
  | .element t cs :: r => .element t (extractMatching cs) :: extractMatching r
  | .textStr s :: r =>
    if startsWithOpener s then extractMatching r else .textStr s :: extractMatching r
  | .comment s :: r =>
    if startsWithOpener s then extractMatching r else .comment s :: extractMatching r

/-- `n` spaces. -/
def indentSp : Nat → List Char
  | 0 => []
  | n + 1 => ' ' :: indentSp n

/-- The lines of `soup.prettify`: every tag and string on a line of its own,
one space of indentation per depth, comments re-serialized with their
markers. -/
def prettifyLines (d : Nat) : List HtmlNode → List (List Char)
  | [] => []
  | .element t cs :: r =>
    (indentSp d ++ '<' :: t ++ ['>']) ::
      (prettifyLines (d + 1) cs ++ ((indentSp d ++ '<' :: '/' :: t ++ ['>']) :: prettifyLines d r))
  | .textStr s :: r => (indentSp d ++ s) :: prettifyLines d r
  | .comment s :: r => (indentSp d ++ "<!--".data ++ s ++ "-->".data) :: prettifyLines d r

/-- `soup.prettify()`: the pretty lines joined by LF with a trailing LF. -/
def prettify (doc : List HtmlNode) : List Char := joinNl (prettifyLines 0 doc) ++ ['\n']

/-- The parser stage of `clean_html` (src/Main.py lines 55-63) over the tree
model: conditional comment extraction, then prettify. -/
def soupStage (cfg : CleaningConfig) (doc : List HtmlNode) : List Char :=
  prettify (if cfg.remove_comments then extractMatching doc else doc)

/-- `clean_html`'s whole content transformation over the tree model. -/
def clean_html_tree (cfg : CleaningConfig) (doc : List HtmlNode) : List Char :=
  clean_html_content cfg (soupStage cfg doc)

/-- Whether `pat` occurs as a contiguous substring of `s`. -/
def containsSub (pat : List Char) : List Char → Bool
  | [] => pat.isEmpty
  | c :: r => pat.isPrefixOf (c :: r) || containsSub pat r

/-- The number of lines of a text, as Python `len(s.splitlines())`. -/
def lineCount (s : List Char) : Nat := (pySplitlines s).length

/-- Whether the text contains two adjacent LF characters (the pattern
`s.replace("\n\n", "")` looks for). -/
def hasDoubleNl : List Char → Bool
  | [] => false
  | [_] => false
  | c1 :: c2 :: r => (c1 = '\n' && c2 = '\n') || hasDoubleNl (c2 :: r)

@[simp] theorem isPySpace_nl : isPySpace '\n' = true := by decide

@[simp] theorem isPySpace_cr : isPySpace '\r' = true := by decide

@[simp] theorem isLineBreak_nl : isLineBreak '\n' = true := by decide

@[simp] theorem pyStrip_nil : pyStrip [] = [] := by decide

theorem space_of_break {c : Char} (h : isLineBreak c = true) : isPySpace c = true := by
  have hm : c ∈ pyBreakChars := by
    simpa [isLineBreak, List.contains_iff_exists_mem_beq, beq_iff_eq] using h
  fin_cases hm <;> decide

/-- C1: for every input text, every configuration and each of the three
pipelines, the output is the watermark banner followed, byte for byte, by the
cleaned content (Compact and Readable formats both, since the configuration is
arbitrary). -/
theorem c1_watermark_first :
    (∀ (cfg : CleaningConfig) (s : List Char),
        ∃ rest, clean_js_content cfg s = WATERMARK ++ rest) ∧
    (∀ (cfg : CleaningConfig) (s : List Char),
        ∃ rest, clean_css_content cfg s = WATERMARK ++ rest) ∧
    (∀ (cfg : CleaningConfig) (pretty : List Char),
        ∃ rest, clean_html_content cfg pretty = WATERMARK ++ rest) :=
  ⟨fun _ _ => ⟨_, rfl⟩, fun _ _ => ⟨_, rfl⟩, fun _ _ => ⟨_, rfl⟩⟩

/-- C8: the `optimize_css` step of the stylesheet pipeline is a no-op — for
every input and every valuation of the other options, enabling it does not
change the output. -/
theorem c8_optimize_style_noop :
    ∀ (fmt : CleanFormat) (rc rel ni mini dry : Bool) (s : List Char),
      clean_css_content ⟨fmt, rc, rel, ni, mini, true, dry⟩ s =
        clean_css_content ⟨fmt, rc, rel, ni, mini, false, dry⟩ s :=
  fun _ _ _ _ _ _ _ => rfl

/-- C10: `normalize_indentation` affects only the markup pipeline: the script
and stylesheet outputs are identical for both values of the flag (they never
read it), while the markup pipeline does expand a tab when the flag is on. -/
theorem c10_indentation_only_markup :
    (∀ (fmt : CleanFormat) (rc rel mini opt dry : Bool) (s : List Char),
        clean_js_content ⟨fmt, rc, rel, true, mini, opt, dry⟩ s =
          clean_js_content ⟨fmt, rc, rel, false, mini, opt, dry⟩ s) ∧
    (∀ (fmt : CleanFormat) (rc rel mini opt dry : Bool) (s : List Char),
        clean_css_content ⟨fmt, rc, rel, true, mini, opt, dry⟩ s =
          clean_css_content ⟨fmt, rc, rel, false, mini, opt, dry⟩ s) ∧
    clean_html_content ⟨.compact, true, false, true, false, false, false⟩ "\ta".data ≠
      clean_html_content ⟨.compact, true, false, false, false, false, false⟩ "\ta".data :=
  ⟨fun _ _ _ _ _ _ _ => rfl, fun _ _ _ _ _ _ _ => rfl, by decide⟩

theorem collapseWsGo_no_nl (s : List Char) : ∀ (b : Bool), '\n' ∉ collapseWsGo b s := by
  induction s with
  | nil => intro b; simp [collapseWsGo]
  | cons c r ih =>
    intro b
    by_cases hc : isPySpace c = true
    · cases b
      · rw [show collapseWsGo false (c :: r) = ' ' :: collapseWsGo true r by
          simp [collapseWsGo, hc]]
        simp only [List.mem_cons]
        rintro (h | h)
        · exact absurd h (by decide)
        · exact ih true h
      · rw [show collapseWsGo true (c :: r) = collapseWsGo true r by
          simp [collapseWsGo, hc]]
        exact ih true
    · have hcn : ¬ ('\n' = c) := fun h => by rw [← h] at hc; exact hc isPySpace_nl
      rw [show collapseWsGo b (c :: r) = c :: collapseWsGo false r by
        simp [collapseWsGo, hc]]
      simp only [List.mem_cons]
      rintro (h | h)
      · exact hcn h
      · exact ih false h

theorem cnlGo_no_nl (s : List Char) (h : '\n' ∉ s) : cnlGo none s = s := by
  induction s with
  | nil => rfl
  | cons c r ih =>
    have hcn : ¬ (c = '\n') := fun hh => h (hh ▸ List.mem_cons_self c r)
    simp [cnlGo, hcn]
    exact ih (fun hm => h (List.mem_cons_of_mem c hm))

theorem removeNewlines_no_nl (s : List Char) : '\n' ∉ removeNewlines s := by
  simp [removeNewlines]

/-- C4 counterexample: on the claim's own input, with `js_minify` on and
Compact format, the full output of the script pipeline does contain LF
characters (the prepended watermark consists of several lines), so the output
is not a single newline-free line. -/
theorem c4_counterexample :
    '\n' ∈ clean_js_content ⟨.compact, false, false, false, true, false, false⟩
      "function f() \x7b\n  return 1;\n\x7d".data := by decide

/-- C4 as amended: with `js_minify` on and Compact format, the cleaned content
that follows the watermark is newline-free (whitespace runs collapsed to one
space, newlines deleted), and on the input `"function f() {\n  return 1;\n}"`
that content is exactly `"function f() { return 1; }"`; the only newlines of
the full output are the watermark's own. -/
theorem c4_minify_amended :
    (∀ (rc rel ni opt dry : Bool) (s : List Char),
        ∃ body, clean_js_content ⟨.compact, rc, rel, ni, true, opt, dry⟩ s =
            WATERMARK ++ body ∧ '\n' ∉ body) ∧
    clean_js_content ⟨.compact, false, false, false, true, false, false⟩
        "function f() \x7b\n  return 1;\n\x7d".data =
      WATERMARK ++ "function f() \x7b return 1; \x7d".data := by
  constructor
  · intro rc rel ni opt dry s
    refine ⟨_, rfl, ?_⟩
    show '\n' ∉ cnlGo none (removeNewlines (collapseWs (joinNl (stripLines
      (if rc = true then rmBlockComments (rmLineComments s) else s)))))
    rw [cnlGo_no_nl _ (removeNewlines_no_nl _)]
    exact removeNewlines_no_nl _
  · decide

/-- C5 counterexample: on the claim's input with `remove_comments` on, the
full stylesheet output does contain a `/*` and a `*/` — the watermark banner
prepended to every output is itself such a comment block. -/
theorem c5_counterexample :
    containsSub "/*".data (clean_css_content ⟨.compact, true, false, false, false, false, false⟩
        "a\x7bcolor:red;\x7d /* comment \n spanning */ b\x7b\x7d".data) = true ∧
    containsSub "*/".data (clean_css_content ⟨.compact, true, false, false, false, false, false⟩
        "a\x7bcolor:red;\x7d /* comment \n spanning */ b\x7b\x7d".data) = true := by
  constructor <;> decide

/-- C5 as amended: with `remove_comments` on, the cleaned content following the
watermark contains no `/*` and no `*/`, and both rule texts survive in it; this
holds in Compact and in Readable format (only the watermark contributes a
comment pair to the full output). -/
theorem c5_comment_removal_amended :
    (∃ body, clean_css_content ⟨.compact, true, false, false, false, false, false⟩
        "a\x7bcolor:red;\x7d /* comment \n spanning */ b\x7b\x7d".data = WATERMARK ++ body ∧
      containsSub "/*".data body = false ∧ containsSub "*/".data body = false ∧
      containsSub "a\x7bcolor:red;\x7d".data body = true ∧
      containsSub "b\x7b\x7d".data body = true) ∧
    (∃ body, clean_css_content ⟨.readable, true, false, false, false, false, false⟩
        "a\x7bcolor:red;\x7d /* comment \n spanning */ b\x7b\x7d".data = WATERMARK ++ body ∧
      containsSub "/*".data body = false ∧ containsSub "*/".data body = false ∧
      containsSub "a\x7bcolor:red;\x7d".data body = true ∧
      containsSub "b\x7b\x7d".data body = true) := by
  constructor
  · exact ⟨"a\x7bcolor:red;\x7d  b\x7b\x7d".data, by decide, by decide, by decide, by decide, by decide⟩
  · exact ⟨"a\x7bcolor:red;\x7d\n  b\x7b\x7d\n".data, by decide, by decide, by decide, by decide, by decide⟩

/-- C2, the divergence witnessed in the model: with `remove_comments` enabled,
the extraction pass of `clean_html` removes nothing from a document holding the
comment `<!-- hello -->` — BeautifulSoup stores a comment node's value without
the `<!--` markers, so the predicate `text.startswith("<!--")` never holds —
and the serialized output of the whole markup pipeline still contains the
comment opener `<!--`. -/
theorem c2_comment_survives :
    extractMatching [.element "div".data [.comment " hello ".data]] =
      [.element "div".data [.comment " hello ".data]] ∧
    containsSub "<!--".data
      (clean_html_tree ⟨.compact, true, true, true, false, false, false⟩
        [.element "div".data [.comment " hello ".data]]) = true := by
  have hx : extractMatching [.element "div".data [.comment " hello ".data]] =
      [.element "div".data [.comment " hello ".data]] := by
    simp [extractMatching, startsWithOpener]
  refine ⟨hx, ?_⟩
  have hs : soupStage ⟨.compact, true, true, true, false, false, false⟩
      [.element "div".data [.comment " hello ".data]] =
      "<div>\n <!-- hello -->\n</div>\n".data := by
    rw [soupStage]
    simp only [hx]
    simp [prettify, prettifyLines, indentSp, joinNl]
    decide
  rw [clean_html_tree, hs]
  decide

theorem rmLineGo_false_nl (s : List Char) :
    rmLineGo false ('\n' :: s) = '\n' :: rmLineGo false s := by
  cases s with
  | nil => rfl
  | cons c r => exact if_neg (fun h => absurd h.1 (by decide))

theorem rmBlockGo_none_nl (s : List Char) :
    rmBlockGo none ('\n' :: s) = '\n' :: rmBlockGo none s := by
  cases s with
  | nil => rfl
  | cons c r => exact if_neg (fun h => absurd h.1 (by decide))

theorem pySplitlines_nl (s : List Char) : pySplitlines ('\n' :: s) = [] :: pySplitlines s := by
  rw [pySplitlines.eq_def]
  simp [show ¬ (('\n' : Char) = '\r') from by decide]

theorem stripLines_nl (s : List Char) : stripLines ('\n' :: s) = stripLines s := by
  simp [stripLines, pySplitlines_nl]

/-- C6: the script and stylesheet pipelines trim lines and drop blank lines
unconditionally — their outputs ignore `remove_empty_lines` entirely, and a
leading blank line is removed whatever the configuration — while the markup
pipeline drops a blank line only when `remove_empty_lines` is on. -/
theorem c6_blank_line_gating :
    (∀ (cfg : CleaningConfig) (b : Bool) (s : List Char),
        clean_js_content { cfg with remove_empty_lines := b } s = clean_js_content cfg s) ∧
    (∀ (cfg : CleaningConfig) (b : Bool) (s : List Char),
        clean_css_content { cfg with remove_empty_lines := b } s = clean_css_content cfg s) ∧
    (∀ (cfg : CleaningConfig) (s : List Char),
        clean_js_content cfg ('\n' :: s) = clean_js_content cfg s) ∧
    (∀ (cfg : CleaningConfig) (s : List Char),
        clean_css_content cfg ('\n' :: s) = clean_css_content cfg s) ∧
    clean_html_content ⟨.readable, false, true, false, false, false, false⟩ ('\n' :: "a".data) =
      clean_html_content ⟨.readable, false, true, false, false, false, false⟩ "a".data ∧
    clean_html_content ⟨.readable, false, false, false, false, false, false⟩ ('\n' :: "a".data) ≠
      clean_html_content ⟨.readable, false, false, false, false, false, false⟩ "a".data := by
  refine ⟨fun _ _ _ => rfl, fun _ _ _ => rfl, ?_, ?_, by decide, by decide⟩
  · intro cfg s
    by_cases hrc : cfg.remove_comments = true <;>
      simp [clean_js_content, hrc, rmLineComments, rmBlockComments,
        rmLineGo_false_nl, rmBlockGo_none_nl, stripLines_nl]
  · intro cfg s
    by_cases hrc : cfg.remove_comments = true <;>
      simp [clean_css_content, hrc, rmBlockComments, rmBlockGo_none_nl, stripLines_nl]

/-- C3: with `dry_run` on, each of the three per-file cleaners leaves every
file's stored content untouched while still producing the backup copy and at
least one new log entry (for any behaviour `soup` of the markup parser). -/
theorem c3_dry_run (soup : CleaningConfig → List Char → List Char)
    (cfg : CleaningConfig) (p content : List Char) (st : FsState)
    (hdry : cfg.dry_run = true) (hfile : st.files.lookup p = some content) :
    ((clean_html soup cfg p st).files = st.files ∧
      (clean_html soup cfg p st).backups = (backupPath p, content) :: st.backups ∧
      st.log.length < (clean_html soup cfg p st).log.length) ∧
    ((clean_js cfg p st).files = st.files ∧
      (clean_js cfg p st).backups = (backupPath p, content) :: st.backups ∧
      st.log.length < (clean_js cfg p st).log.length) ∧
    ((clean_css cfg p st).files = st.files ∧
      (clean_css cfg p st).backups = (backupPath p, content) :: st.backups ∧
      st.log.length < (clean_css cfg p st).log.length) := by
  refine ⟨⟨?_, ?_, ?_⟩, ⟨?_, ?_, ?_⟩, ⟨?_, ?_, ?_⟩⟩ <;>
    simp [clean_html, clean_js, clean_css, hfile, hdry, create_backup, log_message]

theorem c3_dry_run_witness :
    (⟨.compact, true, true, true, false, false, true⟩ : CleaningConfig).dry_run = true ∧
    (FsState.mk [("a.js".data, "x".data)] [] []).files.lookup "a.js".data = some "x".data ∧
    (clean_js ⟨.compact, true, true, true, false, false, true⟩ "a.js".data
        (FsState.mk [("a.js".data, "x".data)] [] [])).files = [("a.js".data, "x".data)] ∧
    (clean_js ⟨.compact, true, true, true, false, false, true⟩ "a.js".data
        (FsState.mk [("a.js".data, "x".data)] [] [])).backups =
      [(backupPath "a.js".data, "x".data)] ∧
    0 < (clean_js ⟨.compact, true, true, true, false, false, true⟩ "a.js".data
        (FsState.mk [("a.js".data, "x".data)] [] [])).log.length := by
  have h := c3_dry_run (fun _ c => c) ⟨.compact, true, true, true, false, false, true⟩
    "a.js".data "x".data (FsState.mk [("a.js".data, "x".data)] [] []) rfl (by decide)
  exact ⟨rfl, by decide, h.2.1.1, h.2.1.2.1, h.2.1.2.2⟩

theorem lookup_setFile_ne (q v p : List Char) (files : List (List Char × List Char))
    (h : p ≠ q) : (setFile q v files).lookup p = files.lookup p := by
  induction files with
  | nil => rfl
  | cons e rest ih =>
    rcases e with ⟨k, w⟩
    by_cases hk : k = q
    · subst hk
      have hpk : (p == k) = false := by simp [h]
      show List.lookup p ((if k = k then (k, v) else (k, w)) :: setFile k v rest) =
        List.lookup p ((k, w) :: rest)
      rw [if_pos rfl, List.lookup, List.lookup]
      simp only [hpk]
      exact ih
    · show List.lookup p ((if k = q then (k, v) else (k, w)) :: setFile q v rest) =
        List.lookup p ((k, w) :: rest)
      rw [if_neg hk, List.lookup, List.lookup]
      cases hpk : (p == k) with
      | false => exact ih
      | true => rfl

theorem lookup_clean_js (cfg : CleaningConfig) (q p : List Char) (st : FsState)
    (h : p ≠ q) : (clean_js cfg q st).files.lookup p = st.files.lookup p := by
  cases hl : st.files.lookup q with
  | none => simp [clean_js, hl]
  | some content =>
    by_cases hd : cfg.dry_run = true
    · simp [clean_js, hl, hd, create_backup, log_message]
    · simp [clean_js, hl, hd, create_backup, log_message, lookup_setFile_ne _ _ _ _ h]

theorem lookup_clean_css (cfg : CleaningConfig) (q p : List Char) (st : FsState)
    (h : p ≠ q) : (clean_css cfg q st).files.lookup p = st.files.lookup p := by
  cases hl : st.files.lookup q with
  | none => simp [clean_css, hl]
  | some content =>
    by_cases hd : cfg.dry_run = true
    · simp [clean_css, hl, hd, create_backup, log_message]
    · simp [clean_css, hl, hd, create_backup, log_message, lookup_setFile_ne _ _ _ _ h]

theorem lookup_clean_html (soup : CleaningConfig → List Char → List Char)
    (cfg : CleaningConfig) (q p : List Char) (st : FsState)
    (h : p ≠ q) : (clean_html soup cfg q st).files.lookup p = st.files.lookup p := by
  cases hl : st.files.lookup q with
  | none => simp [clean_html, hl]
  | some content =>
    by_cases hd : cfg.dry_run = true
    · simp [clean_html, hl, hd, create_backup, log_message]
    · simp [clean_html, hl, hd, create_backup, log_message, lookup_setFile_ne _ _ _ _ h]

/-- C7: a visited file whose name ends in none of `.html`, `.js`, `.css` is
skipped outright: the dispatch leaves the whole state unchanged (content
untouched, no backup, no log entry), and a full directory walk never changes
the content stored for such a path. -/
theorem c7_unrecognized_skipped (soup : CleaningConfig → List Char → List Char)
    (cfg : CleaningConfig) (p : List Char) (st : FsState)
    (h1 : pyEndswith p ".html".data = false)
    (h2 : pyEndswith p ".js".data = false)
    (h3 : pyEndswith p ".css".data = false) :
    clean_directory_step soup cfg p st = st ∧
    ∀ paths, (clean_directory soup cfg paths st).files.lookup p = st.files.lookup p := by
  constructor
  · simp [clean_directory_step, h1, h2, h3]
  · intro paths
    induction paths generalizing st with
    | nil => rfl
    | cons q rest ih =>
      rw [show clean_directory soup cfg (q :: rest) st =
        clean_directory soup cfg rest (clean_directory_step soup cfg q st) from rfl]
      rw [ih]
      by_cases hq : p = q
      · subst hq
        simp [clean_directory_step, h1, h2, h3]
      · rw [clean_directory_step]
        split
        · exact lookup_clean_html soup cfg q p st hq
        · split
          · exact lookup_clean_js cfg q p st hq
          · split
            · exact lookup_clean_css cfg q p st hq
            · rfl

theorem c7_unrecognized_skipped_witness :
    pyEndswith "notes.txt".data ".html".data = false ∧
    pyEndswith "notes.txt".data ".js".data = false ∧
    pyEndswith "notes.txt".data ".css".data = false ∧
    clean_directory_step (fun _ c => c) ⟨.compact, true, true, true, false, false, false⟩
        "notes.txt".data (FsState.mk [("notes.txt".data, "x".data)] [] []) =
      FsState.mk [("notes.txt".data, "x".data)] [] [] := by
  refine ⟨by decide, by decide, by decide, ?_⟩
  exact (c7_unrecognized_skipped (fun _ c => c) ⟨.compact, true, true, true, false, false, false⟩
    "notes.txt".data (FsState.mk [("notes.txt".data, "x".data)] [] [])
    (by decide) (by decide) (by decide)).1

theorem pySplitlines_crlf (r : List Char) :
    pySplitlines ('\r' :: '\n' :: r) = [] :: pySplitlines r := by
  rw [pySplitlines.eq_def]; simp

theorem pySplitlines_cr_single : pySplitlines ['\r'] = [[]] := by
  rw [pySplitlines.eq_def]; simp

theorem pySplitlines_cr_cons (c2 : Char) (r2 : List Char) (h : ¬ (c2 = '\n')) :
    pySplitlines ('\r' :: c2 :: r2) = [] :: pySplitlines (c2 :: r2) := by
  rw [pySplitlines.eq_def]; simp [h]

theorem pySplitlines_break (c : Char) (r : List Char) (hc : isLineBreak c = true)
    (hcr : ¬ (c = '\r')) : pySplitlines (c :: r) = [] :: pySplitlines r := by
  rw [pySplitlines.eq_def]; simp [hc, hcr]

theorem pySplitlines_char (c : Char) (r : List Char) (hc : isLineBreak c = false) :
    pySplitlines (c :: r) =
      (match pySplitlines r with | [] => [[c]] | l :: ls => (c :: l) :: ls) := by
  have hcr : ¬ (c = '\r') := fun h => by rw [h] at hc; exact absurd hc (by decide)
  rw [pySplitlines.eq_def]; simp [hc, hcr]

theorem pySplitlines_eq_nil_iff (s : List Char) : pySplitlines s = [] ↔ s = [] := by
  constructor
  · intro h
    cases s with
    | nil => rfl
    | cons c r =>
      exfalso
      by_cases h1 : c = '\r'
      · subst h1
        cases r with
        | nil => rw [pySplitlines_cr_single] at h; exact absurd h (by simp)
        | cons c2 r2 =>
          by_cases h2 : c2 = '\n'
          · subst h2; rw [pySplitlines_crlf] at h; exact absurd h (by simp)
          · rw [pySplitlines_cr_cons c2 r2 h2] at h; exact absurd h (by simp)
      · by_cases hb : isLineBreak c = true
        · rw [pySplitlines_break c r hb h1] at h; exact absurd h (by simp)
        · rw [pySplitlines_char c r (by simpa using hb)] at h
          rcases hx : pySplitlines r with _ | ⟨l, ls⟩ <;> rw [hx] at h <;> simp at h
  · intro h; subst h; rfl

theorem mem_pySplitlines_no_break :
    ∀ (s : List Char) (l : List Char), l ∈ pySplitlines s → ∀ c ∈ l, isLineBreak c = false
  | [], l => by simp [pySplitlines]
  | [c], l => by
    intro hl
    by_cases h1 : c = '\r'
    · subst h1; rw [pySplitlines_cr_single] at hl; simp at hl; subst hl; simp
    · by_cases hb : isLineBreak c = true
      · rw [pySplitlines_break c [] hb h1] at hl
        simp [pySplitlines] at hl; subst hl; simp
      · have hb2 : isLineBreak c = false := by simpa using hb
        rw [pySplitlines_char c [] hb2] at hl
        simp [pySplitlines] at hl; subst hl
        intro d hd; simp at hd; subst hd; exact hb2
  | c1 :: c2 :: r, l => by
    intro hl
    by_cases h1 : c1 = '\r'
    · subst h1
      by_cases h2 : c2 = '\n'
      · subst h2
        rw [pySplitlines_crlf] at hl
        rcases List.mem_cons.mp hl with h | h
        · subst h; simp
        · exact mem_pySplitlines_no_break r l h
      · rw [pySplitlines_cr_cons c2 r h2] at hl
        rcases List.mem_cons.mp hl with h | h
        · subst h; simp
        · exact mem_pySplitlines_no_break (c2 :: r) l h
    · by_cases hb : isLineBreak c1 = true
      · rw [pySplitlines_break c1 _ hb h1] at hl
        rcases List.mem_cons.mp hl with h | h
        · subst h; simp
        · exact mem_pySplitlines_no_break (c2 :: r) l h
      · have hb2 : isLineBreak c1 = false := by simpa using hb
        rw [pySplitlines_char c1 _ hb2] at hl
        rcases hx : pySplitlines (c2 :: r) with _ | ⟨l0, ls⟩
        · rw [hx] at hl; simp at hl; subst hl
          intro d hd; simp at hd; subst hd; exact hb2
        · rw [hx] at hl
          rcases List.mem_cons.mp hl with h | h
          · subst h
            intro d hd
            rcases List.mem_cons.mp hd with h | h
            · subst h; exact hb2
            · exact mem_pySplitlines_no_break (c2 :: r) l0
                (by rw [hx]; exact List.mem_cons_self l0 ls) d h
          · exact mem_pySplitlines_no_break (c2 :: r) l
              (by rw [hx]; exact List.mem_cons_of_mem l0 h)

theorem pySplitlines_append_line (a x : List Char)
    (h : ∀ c ∈ a, isLineBreak c = false) :
    pySplitlines (a ++ '\n' :: x) = a :: pySplitlines x := by
  induction a with
  | nil => simpa using pySplitlines_nl x
  | cons c a2 ih =>
    have hc : isLineBreak c = false := h c (List.mem_cons_self c a2)
    have ih2 := ih (fun d hd => h d (List.mem_cons_of_mem c hd))
    rw [List.cons_append, pySplitlines_char c _ hc, ih2]

theorem pySplitlines_no_break (s : List Char) (h : ∀ c ∈ s, isLineBreak c = false)
    (hne : s ≠ []) : pySplitlines s = [s] := by
  induction s with
  | nil => exact absurd rfl hne
  | cons c r ih =>
    have hc : isLineBreak c = false := h c (List.mem_cons_self c r)
    rw [pySplitlines_char c r hc]
    cases hr : r with
    | nil => simp [pySplitlines]
    | cons c2 r2 =>
      rw [← hr, ih (fun d hd => h d (List.mem_cons_of_mem c hd)) (by rw [hr]; simp)]

theorem dropWhile_dropWhile (p : Char → Bool) (l : List Char) :
    List.dropWhile p (List.dropWhile p l) = List.dropWhile p l := by
  induction l with
  | nil => rfl
  | cons c r ih =>
    by_cases hc : p c = true
    · simp [List.dropWhile_cons, hc, ih]
    · simp [List.dropWhile_cons, hc]

theorem dropWhile_head_false (p : Char → Bool) (l : List Char) (c : Char) (r : List Char)
    (h : List.dropWhile p l = c :: r) : p c = false := by
  induction l with
  | nil => simp at h
  | cons a t ih =>
    by_cases ha : p a = true
    · rw [List.dropWhile_cons, if_pos ha] at h; exact ih h
    · rw [List.dropWhile_cons, if_neg ha] at h
      injection h with h1 h2
      rw [← h1]
      simpa using ha

theorem dropWhile_rstrip (p : Char → Bool) (l : List Char)
    (hl : List.dropWhile p l = l) :
    List.dropWhile p ((l.reverse.dropWhile p).reverse) = (l.reverse.dropWhile p).reverse := by
  cases hx : (l.reverse.dropWhile p).reverse with
  | nil => rfl
  | cons x xs =>
    have hpre : (l.reverse.dropWhile p).reverse ++ (l.reverse.takeWhile p).reverse = l := by
      rw [← List.reverse_append, List.takeWhile_append_dropWhile p l.reverse,
        List.reverse_reverse]
    rw [hx] at hpre
    have hpx : p x = false := by
      by_contra hpxc
      have hpxt : p x = true := by simpa using hpxc
      rw [← hpre, List.cons_append, List.dropWhile_cons, if_pos hpxt] at hl
      have hlen := congrArg List.length hl
      have hle : (List.dropWhile p (xs ++ (l.reverse.takeWhile p).reverse)).length ≤
          (xs ++ (l.reverse.takeWhile p).reverse).length :=
        List.Sublist.length_le (List.dropWhile_sublist p)
      simp only [List.length_cons] at hlen
      omega
    rw [List.dropWhile_cons, if_neg (by simp [hpx])]

theorem pyStrip_idem (l : List Char) : pyStrip (pyStrip l) = pyStrip l := by
  have h1 : List.dropWhile isPySpace (pyStrip l) = pyStrip l :=
    dropWhile_rstrip isPySpace (List.dropWhile isPySpace l) (dropWhile_dropWhile _ _)
  show ((List.dropWhile isPySpace (pyStrip l)).reverse.dropWhile isPySpace).reverse = pyStrip l
  rw [h1]
  have h2 : (pyStrip l).reverse =
      List.dropWhile isPySpace ((List.dropWhile isPySpace l).reverse) := by
    unfold pyStrip
    rw [List.reverse_reverse]
  rw [h2, dropWhile_dropWhile, ← h2, List.reverse_reverse]

theorem pyStrip_eq_nil_iff (l : List Char) :
    pyStrip l = [] ↔ ∀ c ∈ l, isPySpace c = true := by
  constructor
  · intro h
    have h2 : List.dropWhile isPySpace ((List.dropWhile isPySpace l).reverse) = [] := by
      have h3 := congrArg List.reverse h
      unfold pyStrip at h3
      simpa using h3
    have h3 := List.dropWhile_eq_nil_iff.mp h2
    intro c hc
    have hsplit : List.takeWhile isPySpace l ++ List.dropWhile isPySpace l = l :=
      List.takeWhile_append_dropWhile isPySpace l
    rw [← hsplit] at hc
    rcases List.mem_append.mp hc with hm | hm
    · exact List.mem_takeWhile_imp hm
    · exact h3 c (List.mem_reverse.mpr hm)
  · intro h
    have h1 : List.dropWhile isPySpace l = [] :=
      List.dropWhile_eq_nil_iff.mpr h
    unfold pyStrip
    rw [h1]
    rfl

theorem mem_pyStrip (l : List Char) (c : Char) (hc : c ∈ pyStrip l) : c ∈ l := by
  unfold pyStrip at hc
  rw [List.mem_reverse] at hc
  exact (List.dropWhile_sublist isPySpace).mem
    (List.mem_reverse.mp ((List.dropWhile_sublist isPySpace).mem hc))

theorem count_dropWhile_space (l : List Char) :
    (List.dropWhile isPySpace l).count '}' = l.count '}' := by
  induction l with
  | nil => rfl
  | cons c r ih =>
    by_cases hc : isPySpace c = true
    · have hne : ¬ (('}' : Char) = c) := fun h => by
        rw [← h] at hc; exact absurd hc (by decide)
      rw [List.dropWhile_cons, if_pos hc, ih, List.count_cons]
      have hne2 : ¬ (c = '}') := fun h => hne h.symm
      simp [hne2]
    · rw [List.dropWhile_cons, if_neg hc]

theorem count_pyStrip (l : List Char) : (pyStrip l).count '}' = l.count '}' := by
  unfold pyStrip
  rw [List.count_reverse, count_dropWhile_space, List.count_reverse, count_dropWhile_space]

theorem count_eq_zero_of_blank (l : List Char) (h : pyStrip l = []) : l.count '}' = 0 := by
  rw [← count_pyStrip, h]
  rfl

theorem pyStrip_getLast_not_space (l : List Char) (hl : pyStrip l = l) :
    ∀ c, l.getLast? = some c → isPySpace c = false := by
  intro c hc
  have h1 : l.reverse = List.dropWhile isPySpace ((List.dropWhile isPySpace l).reverse) := by
    conv_lhs => rw [← hl]
    unfold pyStrip
    rw [List.reverse_reverse]
  have h2 : l.reverse.head? = some c := by rw [List.head?_reverse]; exact hc
  rcases hx : List.dropWhile isPySpace ((List.dropWhile isPySpace l).reverse)
      with _ | ⟨x, xs⟩
  · rw [h1, hx] at h2; simp at h2
  · rw [h1, hx] at h2
    simp at h2
    subst h2
    exact dropWhile_head_false isPySpace _ x xs hx

theorem mem_stripLines (s : List Char) (l : List Char) (hl : l ∈ stripLines s) :
    pyStrip l = l ∧ l ≠ [] ∧ ∀ c ∈ l, isLineBreak c = false := by
  unfold stripLines at hl
  rcases List.mem_filter.mp hl with ⟨hmap, hne⟩
  rcases List.mem_map.mp hmap with ⟨l0, hl0, rfl⟩
  refine ⟨pyStrip_idem l0, by simpa using hne, ?_⟩
  intro c hc
  exact mem_pySplitlines_no_break s l0 hl0 c (mem_pyStrip l0 c hc)

theorem joinNl_cons_cons (a b : List Char) (t : List (List Char)) :
    joinNl (a :: b :: t) = a ++ '\n' :: joinNl (b :: t) := by
  simp [joinNl, List.intercalate, List.intersperse_cons_cons]

theorem joinNl_singleton (a : List Char) : joinNl [a] = a := by
  simp [joinNl, List.intercalate]

theorem pySplitlines_joinNl_nonempty (qs : List (List Char))
    (h : ∀ l ∈ qs, l ≠ [] ∧ ∀ c ∈ l, isLineBreak c = false) :
    pySplitlines (joinNl qs) = qs := by
  induction qs with
  | nil => rfl
  | cons q t ih =>
    cases t with
    | nil =>
      rw [joinNl_singleton]
      exact pySplitlines_no_break q (h q (List.mem_cons_self q [])).2
        (h q (List.mem_cons_self q [])).1
    | cons b t2 =>
      rw [joinNl_cons_cons,
        pySplitlines_append_line q _ (h q (List.mem_cons_self q _)).2,
        ih (fun l hl => h l (List.mem_cons_of_mem q hl))]

theorem pySplitlines_joinNl_le (qs : List (List Char))
    (h : ∀ l ∈ qs, ∀ c ∈ l, isLineBreak c = false) :
    (pySplitlines (joinNl qs)).length ≤ qs.length := by
  induction qs with
  | nil => simp [joinNl, List.intercalate, pySplitlines]
  | cons q t ih =>
    cases t with
    | nil =>
      rw [joinNl_singleton]
      by_cases hq : q = []
      · subst hq; simp [pySplitlines]
      · rw [pySplitlines_no_break q (h q (List.mem_cons_self q _)) hq]
    | cons b t2 =>
      rw [joinNl_cons_cons, pySplitlines_append_line q _ (h q (List.mem_cons_self q _))]
      simpa using ih (fun l hl => h l (List.mem_cons_of_mem q hl))

theorem pySplitlines_joinNl_ge (qs : List (List Char))
    (h : ∀ l ∈ qs, ∀ c ∈ l, isLineBreak c = false) :
    qs.length ≤ (pySplitlines (joinNl qs)).length + 1 := by
  induction qs with
  | nil => simp
  | cons q t ih =>
    cases t with
    | nil => simp
    | cons b t2 =>
      rw [joinNl_cons_cons, pySplitlines_append_line q _ (h q (List.mem_cons_self q _))]
      have hih := ih (fun l hl => h l (List.mem_cons_of_mem q hl))
      simp only [List.length_cons] at hih ⊢
      omega

theorem stripLines_joinNl (qs : List (List Char))
    (h : ∀ l ∈ qs, ∀ c ∈ l, isLineBreak c = false) :
    stripLines (joinNl qs) = (qs.map pyStrip).filter (fun l => !l.isEmpty) := by
  induction qs with
  | nil => rfl
  | cons q t ih =>
    cases t with
    | nil =>
      rw [joinNl_singleton]
      by_cases hq : q = []
      · subst hq; simp [stripLines, pySplitlines]
      · unfold stripLines
        rw [pySplitlines_no_break q (h q (List.mem_cons_self q _)) hq]
    | cons b t2 =>
      unfold stripLines
      rw [joinNl_cons_cons, pySplitlines_append_line q _ (h q (List.mem_cons_self q _))]
      have ih2 := ih (fun l hl => h l (List.mem_cons_of_mem q hl))
      unfold stripLines at ih2
      simp only [List.map_cons, List.filter_cons, ih2]

theorem stripLines_of_stripped (qs : List (List Char))
    (h : ∀ l ∈ qs, pyStrip l = l ∧ l ≠ []) :
    (qs.map pyStrip).filter (fun l => !l.isEmpty) = qs := by
  induction qs with
  | nil => rfl
  | cons q t ih =>
    simp only [List.map_cons, List.filter_cons]
    rw [(h q (List.mem_cons_self q _)).1]
    have hq : (!q.isEmpty) = true := by
      have := (h q (List.mem_cons_self q _)).2
      simpa using this
    rw [if_pos hq, ih (fun l hl => h l (List.mem_cons_of_mem q hl))]

theorem wm_cons (x : List Char) :
    WATERMARK ++ x =
      '\n' :: ("/* ".data ++ '\n' :: ("    Cleaned by TheZ Cleaning Tool ".data ++ '\n' :: ("    Watermark: 'This file was processed by TheZ's Cleaning Tool'".data ++ '\n' :: ("    For support and feedback, visit: https://discord.gg/zsGTqgnsmK ".data ++ '\n' :: ("    Version: 1.1".data ++ '\n' :: ("*/".data ++ '\n' :: x)))))) := rfl

theorem wm_split (x : List Char) :
    pySplitlines (WATERMARK ++ x) =
      [] :: "/* ".data :: "    Cleaned by TheZ Cleaning Tool ".data :: "    Watermark: 'This file was processed by TheZ's Cleaning Tool'".data :: "    For support and feedback, visit: https://discord.gg/zsGTqgnsmK ".data :: "    Version: 1.1".data :: "*/".data :: pySplitlines x := by
  rw [wm_cons x, pySplitlines_nl,
    pySplitlines_append_line _ _ (by decide),
    pySplitlines_append_line _ _ (by decide),
    pySplitlines_append_line _ _ (by decide),
    pySplitlines_append_line _ _ (by decide),
    pySplitlines_append_line _ _ (by decide),
    pySplitlines_append_line _ _ (by decide)]

theorem lineCount_watermark (x : List Char) :
    lineCount (WATERMARK ++ x) = 7 + lineCount x := by
  unfold lineCount
  rw [wm_split]
  simp only [List.length_cons]
  omega

theorem stripLines_watermark (x : List Char) :
    stripLines (WATERMARK ++ x) =
      "/*".data :: "Cleaned by TheZ Cleaning Tool".data :: "Watermark: 'This file was processed by TheZ's Cleaning Tool'".data :: "For support and feedback, visit: https://discord.gg/zsGTqgnsmK".data :: "Version: 1.1".data :: "*/".data :: stripLines x := by
  unfold stripLines
  rw [wm_split]
  rw [show ([] :: "/* ".data :: "    Cleaned by TheZ Cleaning Tool ".data :: "    Watermark: 'This file was processed by TheZ's Cleaning Tool'".data :: "    For support and feedback, visit: https://discord.gg/zsGTqgnsmK ".data :: "    Version: 1.1".data :: "*/".data :: pySplitlines x) =
    [[], "/* ".data, "    Cleaned by TheZ Cleaning Tool ".data, "    Watermark: 'This file was processed by TheZ's Cleaning Tool'".data, "    For support and feedback, visit: https://discord.gg/zsGTqgnsmK ".data, "    Version: 1.1".data, "*/".data] ++ pySplitlines x from rfl]
  rw [List.map_append, List.filter_append]
  rw [show List.filter (fun l => !l.isEmpty)
      (List.map pyStrip [[], "/* ".data, "    Cleaned by TheZ Cleaning Tool ".data, "    Watermark: 'This file was processed by TheZ's Cleaning Tool'".data, "    For support and feedback, visit: https://discord.gg/zsGTqgnsmK ".data, "    Version: 1.1".data, "*/".data]) =
    ["/*".data, "Cleaned by TheZ Cleaning Tool".data, "Watermark: 'This file was processed by TheZ's Cleaning Tool'".data, "For support and feedback, visit: https://discord.gg/zsGTqgnsmK".data, "Version: 1.1".data, "*/".data] from by decide]
  rfl

theorem compactRep_of_no_double : ∀ (s : List Char), hasDoubleNl s = false → compactRep s = s
  | [] => fun _ => rfl
  | [_] => fun _ => rfl
  | c1 :: c2 :: r => fun h => by
    rw [show hasDoubleNl (c1 :: c2 :: r) =
      ((c1 = '\n' && c2 = '\n') || hasDoubleNl (c2 :: r)) from rfl] at h
    rcases Bool.or_eq_false_iff.mp h with ⟨h1, h2⟩
    have hnd : ¬ (c1 = '\n' ∧ c2 = '\n') := by
      intro hh
      rcases hh with ⟨ha, hb⟩
      subst ha; subst hb
      simp at h1
    rw [show compactRep (c1 :: c2 :: r) =
      (if c1 = '\n' ∧ c2 = '\n' then compactRep r else c1 :: compactRep (c2 :: r)) from rfl,
      if_neg hnd, compactRep_of_no_double (c2 :: r) h2]

theorem hasDoubleNl_of_no_nl : ∀ (s : List Char), (∀ c ∈ s, ¬ (c = '\n')) → hasDoubleNl s = false
  | [] => fun _ => rfl
  | [_] => fun _ => rfl
  | c1 :: c2 :: r => fun h => by
    rw [show hasDoubleNl (c1 :: c2 :: r) =
      ((c1 = '\n' && c2 = '\n') || hasDoubleNl (c2 :: r)) from rfl]
    rw [hasDoubleNl_of_no_nl (c2 :: r) (fun d hd => h d (List.mem_cons_of_mem c1 hd))]
    simp [h c1 (List.mem_cons_self c1 (c2 :: r))]

theorem hasDoubleNl_append (a z : List Char) (ha : ∀ c ∈ a, ¬ (c = '\n'))
    (hz : hasDoubleNl z = false)
    (hhead : ∀ (c : Char) (w : List Char), z = c :: w → ¬ (c = '\n')) :
    hasDoubleNl (a ++ '\n' :: z) = false := by
  induction a with
  | nil =>
    cases z with
    | nil => rfl
    | cons c w =>
      have hc := hhead c w rfl
      rw [List.nil_append,
        show hasDoubleNl ('\n' :: c :: w) =
          (('\n' = '\n' && c = '\n') || hasDoubleNl (c :: w)) from rfl]
      simp [hc, hz]
  | cons c a2 ih =>
    have hc := ha c (List.mem_cons_self c a2)
    have ih2 := ih (fun d hd => ha d (List.mem_cons_of_mem c hd))
    cases ha2 : a2 ++ '\n' :: z with
    | nil => exact absurd ha2 (by simp)
    | cons d w =>
      rw [List.cons_append, ha2,
        show hasDoubleNl (c :: d :: w) =
          ((c = '\n' && d = '\n') || hasDoubleNl (d :: w)) from rfl,
        ← ha2, ih2]
      simp [hc]

theorem joinNl_cons_head (x : Char) (b2 : List Char) (t2 : List (List Char)) :
    ∃ w, joinNl ((x :: b2) :: t2) = x :: w := by
  cases t2 with
  | nil => exact ⟨b2, joinNl_singleton _⟩
  | cons u v =>
    refine ⟨b2 ++ '\n' :: joinNl (u :: v), ?_⟩
    rw [joinNl_cons_cons]
    rfl

theorem hasDoubleNl_joinNl (qs : List (List Char))
    (h : ∀ l ∈ qs, l ≠ [] ∧ ∀ c ∈ l, ¬ (c = '\n')) : hasDoubleNl (joinNl qs) = false := by
  induction qs with
  | nil => rfl
  | cons q t ih =>
    cases t with
    | nil =>
      rw [joinNl_singleton]
      exact hasDoubleNl_of_no_nl q (h q (List.mem_cons_self q _)).2
    | cons b t2 =>
      rw [joinNl_cons_cons]
      refine hasDoubleNl_append q _ (h q (List.mem_cons_self q _)).2
        (ih (fun l hl => h l (List.mem_cons_of_mem q hl))) ?_
      intro c w hcw
      have hb := h b (List.mem_cons_of_mem q (List.mem_cons_self b t2))
      rcases hx : b with _ | ⟨x, b2⟩
      · exact absurd hx hb.1
      · rcases joinNl_cons_head x b2 t2 with ⟨w2, hw2⟩
        rw [hx, hw2] at hcw
        injection hcw with hc0 _
        rw [← hc0]
        exact hb.2 x (by rw [hx]; exact List.mem_cons_self x b2)

theorem break_false_of_ne_nl (c : Char) (h : isLineBreak c = false) : ¬ (c = '\n') := by
  intro he
  subst he
  rw [isLineBreak_nl] at h
  exact absurd h (by decide)

theorem wmStripFacts :
    ∀ l ∈ (["/*".data, "Cleaned by TheZ Cleaning Tool".data, "Watermark: 'This file was processed by TheZ's Cleaning Tool'".data, "For support and feedback, visit: https://discord.gg/zsGTqgnsmK".data, "Version: 1.1".data, "*/".data] : List (List Char)),
      (pyStrip l = l ∧ l ≠ []) ∧ ∀ c ∈ l, isLineBreak c = false := by decide

theorem c9_core_compact (s : List Char) :
    lineCount (WATERMARK ++ compactRep (joinNl (stripLines
        (WATERMARK ++ compactRep (joinNl (stripLines s)))))) ≥
      lineCount (WATERMARK ++ compactRep (joinNl (stripLines s))) := by
  set q := stripLines s with hq
  have hmem : ∀ l ∈ q, pyStrip l = l ∧ l ≠ [] ∧ ∀ c ∈ l, isLineBreak c = false :=
    fun l hl => mem_stripLines s l (hq ▸ hl)
  have hnn : ∀ l ∈ q, l ≠ [] ∧ ∀ c ∈ l, ¬ (c = '\n') :=
    fun l hl => ⟨(hmem l hl).2.1, fun c hc => break_false_of_ne_nl c ((hmem l hl).2.2 c hc)⟩
  have h1 : compactRep (joinNl q) = joinNl q :=
    compactRep_of_no_double _ (hasDoubleNl_joinNl q hnn)
  rw [h1, stripLines_watermark]
  have h3 : stripLines (joinNl q) = q := by
    rw [stripLines_joinNl q (fun l hl => (hmem l hl).2.2)]
    exact stripLines_of_stripped q (fun l hl => ⟨(hmem l hl).1, (hmem l hl).2.1⟩)
  rw [h3]
  rw [show ("/*".data :: "Cleaned by TheZ Cleaning Tool".data :: "Watermark: 'This file was processed by TheZ's Cleaning Tool'".data :: "For support and feedback, visit: https://discord.gg/zsGTqgnsmK".data :: "Version: 1.1".data :: "*/".data :: q)
    = ["/*".data, "Cleaned by TheZ Cleaning Tool".data, "Watermark: 'This file was processed by TheZ's Cleaning Tool'".data, "For support and feedback, visit: https://discord.gg/zsGTqgnsmK".data, "Version: 1.1".data, "*/".data] ++ q from rfl]
  have hwq : ∀ l ∈ (["/*".data, "Cleaned by TheZ Cleaning Tool".data, "Watermark: 'This file was processed by TheZ's Cleaning Tool'".data, "For support and feedback, visit: https://discord.gg/zsGTqgnsmK".data, "Version: 1.1".data, "*/".data] : List (List Char)) ++ q,
      (pyStrip l = l ∧ l ≠ []) ∧ ∀ c ∈ l, isLineBreak c = false := by
    intro l hl
    rcases List.mem_append.mp hl with h | h
    · exact wmStripFacts l h
    · exact ⟨⟨(hmem l h).1, (hmem l h).2.1⟩, (hmem l h).2.2⟩
  have h4 : compactRep (joinNl (["/*".data, "Cleaned by TheZ Cleaning Tool".data, "Watermark: 'This file was processed by TheZ's Cleaning Tool'".data, "For support and feedback, visit: https://discord.gg/zsGTqgnsmK".data, "Version: 1.1".data, "*/".data] ++ q)) = joinNl (["/*".data, "Cleaned by TheZ Cleaning Tool".data, "Watermark: 'This file was processed by TheZ's Cleaning Tool'".data, "For support and feedback, visit: https://discord.gg/zsGTqgnsmK".data, "Version: 1.1".data, "*/".data] ++ q) :=
    compactRep_of_no_double _ (hasDoubleNl_joinNl _ (fun l hl =>
      ⟨(hwq l hl).1.2, fun c hc => break_false_of_ne_nl c ((hwq l hl).2 c hc)⟩))
  rw [h4, lineCount_watermark, lineCount_watermark]
  unfold lineCount
  rw [pySplitlines_joinNl_nonempty q (fun l hl => ⟨(hmem l hl).2.1, (hmem l hl).2.2⟩),
    pySplitlines_joinNl_nonempty _ (fun l hl => ⟨(hwq l hl).1.2, (hwq l hl).2⟩)]
  simp only [List.length_append, List.length_cons, List.length_nil]
  omega

theorem pySplitlines_char_cons (c : Char) (y : List Char) (hc : isLineBreak c = false)
    (l : List Char) (ls : List (List Char)) (hy : pySplitlines y = l :: ls) :
    pySplitlines (c :: y) = (c :: l) :: ls := by
  rw [pySplitlines_char c y hc, hy]

theorem pySplitlines_append_nl (y : List Char) : ∀ (z : List Char),
    pySplitlines (z ++ '\n' :: y) = pySplitlines (z ++ ['\n']) ++ pySplitlines y
  | [] => by
    simp only [List.nil_append]
    rw [pySplitlines_nl, pySplitlines_nl]
    rfl
  | c :: r => by
    by_cases h1 : c = '\r'
    · subst h1
      cases r with
      | nil =>
        simp only [List.cons_append, List.nil_append]
        rw [pySplitlines_crlf, pySplitlines_crlf]
        rfl
      | cons c2 r2 =>
        by_cases h2 : c2 = '\n'
        · subst h2
          simp only [List.cons_append]
          rw [pySplitlines_crlf, pySplitlines_crlf, pySplitlines_append_nl y r2]
          rfl
        · simp only [List.cons_append]
          rw [pySplitlines_cr_cons _ _ h2,
            show (c2 :: (r2 ++ '\n' :: y)) = ((c2 :: r2) ++ '\n' :: y) from rfl,
            pySplitlines_append_nl y (c2 :: r2),
            pySplitlines_cr_cons _ _ h2,
            show (c2 :: (r2 ++ ['\n'])) = ((c2 :: r2) ++ ['\n']) from rfl]
          rfl
    · by_cases hb : isLineBreak c = true
      · simp only [List.cons_append]
        rw [pySplitlines_break c _ hb h1, pySplitlines_break c _ hb h1,
          pySplitlines_append_nl y r]
        rfl
      · have hb2 : isLineBreak c = false := by simpa using hb
        simp only [List.cons_append]
        rcases hx : pySplitlines (r ++ ['\n']) with _ | ⟨h0, t0⟩
        · exact absurd ((pySplitlines_eq_nil_iff _).mp hx) (by simp)
        · rw [pySplitlines_char_cons c _ hb2 h0 t0 hx,
            pySplitlines_char_cons c _ hb2 h0 (t0 ++ pySplitlines y)
              (by rw [pySplitlines_append_nl y r, hx]; rfl)]
          rfl

theorem pySplitlines_append_single : ∀ (z : List Char),
    pySplitlines (z ++ ['\n']) = pySplitlines z ∨
      pySplitlines (z ++ ['\n']) = pySplitlines z ++ [[]]
  | [] => by
    right
    simp only [List.nil_append]
    rw [pySplitlines_nl]
    rfl
  | c :: r => by
    by_cases h1 : c = '\r'
    · subst h1
      cases r with
      | nil =>
        left
        rw [show ((['\r'] : List Char) ++ ['\n']) = ('\r' :: '\n' :: ([] : List Char)) from rfl,
          pySplitlines_crlf, pySplitlines_cr_single]
        rfl
      | cons c2 r2 =>
        by_cases h2 : c2 = '\n'
        · subst h2
          rcases pySplitlines_append_single r2 with h | h
          · left
            simp only [List.cons_append]
            rw [pySplitlines_crlf, pySplitlines_crlf, h]
          · right
            simp only [List.cons_append]
            rw [pySplitlines_crlf, pySplitlines_crlf, h]
            rfl
        · rcases pySplitlines_append_single (c2 :: r2) with h | h
          · left
            simp only [List.cons_append]
            rw [pySplitlines_cr_cons _ _ h2,
              show (c2 :: (r2 ++ ['\n'])) = ((c2 :: r2) ++ ['\n']) from rfl, h,
              pySplitlines_cr_cons _ _ h2]
          · right
            simp only [List.cons_append]
            rw [pySplitlines_cr_cons _ _ h2,
              show (c2 :: (r2 ++ ['\n'])) = ((c2 :: r2) ++ ['\n']) from rfl, h,
              pySplitlines_cr_cons _ _ h2]
            rfl
    · by_cases hb : isLineBreak c = true
      · rcases pySplitlines_append_single r with h | h
        · left
          simp only [List.cons_append]
          rw [pySplitlines_break c _ hb h1, h, pySplitlines_break c _ hb h1]
        · right
          simp only [List.cons_append]
          rw [pySplitlines_break c _ hb h1, h, pySplitlines_break c _ hb h1]
          rfl
      · have hb2 : isLineBreak c = false := by simpa using hb
        rcases hr : pySplitlines r with _ | ⟨m, ms⟩
        · have hrnil : r = [] := (pySplitlines_eq_nil_iff r).mp hr
          subst hrnil
          left
          rw [show (((c :: []) : List Char) ++ ['\n']) = (c :: '\n' :: ([] : List Char)) from rfl,
            pySplitlines_char_cons c _ hb2 [] [] (by rw [pySplitlines_nl]; rfl),
            pySplitlines_char c [] hb2]
          rfl
        · rcases pySplitlines_append_single r with h | h
          · left
            simp only [List.cons_append]
            rw [pySplitlines_char_cons c _ hb2 m ms (by rw [h, hr]),
              pySplitlines_char_cons c _ hb2 m ms hr]
          · right
            simp only [List.cons_append]
            rw [pySplitlines_char_cons c _ hb2 m (ms ++ [[]]) (by rw [h, hr]; rfl),
              pySplitlines_char_cons c _ hb2 m ms hr]
            rfl

theorem readIns_brace (r : List Char) : readIns ('}' :: r) = '}' :: '\n' :: readIns r :=
  if_pos rfl

theorem readIns_char (c : Char) (r : List Char) (h : ¬ (c = '}')) :
    readIns (c :: r) = c :: readIns r :=
  if_neg h

theorem readIns_append (a b : List Char) : readIns (a ++ b) = readIns a ++ readIns b := by
  induction a with
  | nil => rfl
  | cons c r ih =>
    by_cases hc : c = '}'
    · subst hc
      rw [List.cons_append, readIns_brace, readIns_brace, ih]
      rfl
    · rw [List.cons_append, readIns_char c _ hc, readIns_char c _ hc, ih]
      rfl

theorem length_F_readIns : ∀ (p : List Char), (∀ c ∈ p, isLineBreak c = false) →
    (pySplitlines (readIns p ++ ['\n'])).length = p.count '}' + 1
  | [] => by
    intro _
    rw [show readIns [] = [] from rfl]
    simp only [List.nil_append]
    rw [pySplitlines_nl]
    rfl
  | c :: r => by
    intro h
    have hc := h c (List.mem_cons_self c r)
    have hrec := length_F_readIns r (fun d hd => h d (List.mem_cons_of_mem c hd))
    by_cases hbr : c = '}'
    · subst hbr
      rw [readIns_brace,
        show (('}' :: '\n' :: readIns r) ++ ['\n']) = ('}' :: '\n' :: (readIns r ++ ['\n'])) from rfl]
      rcases hx : pySplitlines (readIns r ++ ['\n']) with _ | ⟨h0, t0⟩
      · exact absurd ((pySplitlines_eq_nil_iff _).mp hx) (by simp)
      · rw [pySplitlines_char_cons '}' _ (by decide) [] (h0 :: t0) (by rw [pySplitlines_nl, hx])]
        rw [hx] at hrec
        simp only [List.length_cons] at hrec ⊢
        rw [List.count_cons, if_pos (by decide : (('}' : Char) == '}') = true)]
        omega
    · rw [readIns_char c _ hbr,
        show ((c :: readIns r) ++ ['\n']) = (c :: (readIns r ++ ['\n'])) from rfl]
      rcases hx : pySplitlines (readIns r ++ ['\n']) with _ | ⟨h0, t0⟩
      · exact absurd ((pySplitlines_eq_nil_iff _).mp hx) (by simp)
      · rw [pySplitlines_char_cons c _ hc h0 t0 hx]
        rw [hx] at hrec
        simp only [List.length_cons] at hrec ⊢
        rw [List.count_cons, if_neg (by simp [show ¬ (c = '}') from hbr])]
        omega

theorem blank_tail_of_blank_cons (c : Char) (h0 : List Char)
    (h : (pyStrip (c :: h0)).isEmpty = true) : (pyStrip h0).isEmpty = true := by
  have hall := (pyStrip_eq_nil_iff (c :: h0)).mp (by
    cases hx : pyStrip (c :: h0) with
    | nil => rfl
    | cons a b => rw [hx] at h; simp at h)
  have h2 : pyStrip h0 = [] :=
    (pyStrip_eq_nil_iff h0).mpr (fun d hd => hall d (List.mem_cons_of_mem c hd))
  rw [h2]
  rfl

theorem blanks_F_readIns : ∀ (p : List Char), (∀ c ∈ p, isLineBreak c = false) →
    (∀ c, p.getLast? = some c → isPySpace c = false) → p ≠ [] →
    List.countP (fun l => (pyStrip l).isEmpty) (pySplitlines (readIns p ++ ['\n'])) ≤
      p.count '}'
  | [] => by
    intro _ _ hne
    exact absurd rfl hne
  | [c] => by
    intro hb hlast _
    by_cases hbr : c = '}'
    · subst hbr
      decide
    · have hsp : isPySpace c = false := hlast c (by simp)
      have hcb : isLineBreak c = false := hb c (by simp)
      rw [readIns_char c _ hbr,
        show (((c :: readIns []) : List Char) ++ ['\n']) = (c :: '\n' :: ([] : List Char)) from rfl,
        pySplitlines_char_cons c _ hcb [] [] (by rw [pySplitlines_nl]; rfl)]
      have hstrip : pyStrip [c] = [c] := by
        unfold pyStrip
        rw [show List.dropWhile isPySpace [c] = [c] from by
          rw [List.dropWhile_cons, if_neg (by simp [hsp])]]
        rw [show ([c] : List Char).reverse = [c] from rfl,
          show List.dropWhile isPySpace [c] = [c] from by
            rw [List.dropWhile_cons, if_neg (by simp [hsp])]]
        rfl
      rw [List.countP_cons, if_neg (by simp [hstrip])]
      simp
  | c :: c2 :: r => by
    intro hb hlast hne
    have hc := hb c (List.mem_cons_self _ _)
    have hlast2 : ∀ d, (c2 :: r).getLast? = some d → isPySpace d = false := by
      intro d hd
      apply hlast d
      rw [List.getLast?_cons_cons]
      exact hd
    have hb2 : ∀ d ∈ c2 :: r, isLineBreak d = false :=
      fun d hd => hb d (List.mem_cons_of_mem c hd)
    have hrec := blanks_F_readIns (c2 :: r) hb2 hlast2 (by simp)
    by_cases hbr : c = '}'
    · subst hbr
      rw [readIns_brace,
        show (('}' :: '\n' :: readIns (c2 :: r)) ++ ['\n']) =
          ('}' :: '\n' :: (readIns (c2 :: r) ++ ['\n'])) from rfl]
      rcases hx : pySplitlines (readIns (c2 :: r) ++ ['\n']) with _ | ⟨h0, t0⟩
      · exact absurd ((pySplitlines_eq_nil_iff _).mp hx) (by simp)
      · rw [pySplitlines_char_cons '}' _ (by decide) [] (h0 :: t0) (by rw [pySplitlines_nl, hx])]
        rw [hx] at hrec
        rw [List.countP_cons, if_neg (by decide), List.count_cons,
          if_pos (by decide : (('}' : Char) == '}') = true)]
        omega
    · rw [readIns_char c _ hbr,
        show ((c :: readIns (c2 :: r)) ++ ['\n']) = (c :: (readIns (c2 :: r) ++ ['\n'])) from rfl]
      rcases hx : pySplitlines (readIns (c2 :: r) ++ ['\n']) with _ | ⟨h0, t0⟩
      · exact absurd ((pySplitlines_eq_nil_iff _).mp hx) (by simp)
      · rw [pySplitlines_char_cons c _ hc h0 t0 hx]
        rw [hx] at hrec
        have hcnt : List.count '}' (c :: c2 :: r) = List.count '}' (c2 :: r) := by
          rw [List.count_cons, if_neg (show ¬ ((c == '}') = true) from by simp [hbr]),
            Nat.add_zero]
        rw [hcnt, List.countP_cons]
        rw [List.countP_cons] at hrec
        by_cases hblk : ((pyStrip (c :: h0)).isEmpty) = true
        · rw [if_pos hblk]
          rw [if_pos (blank_tail_of_blank_cons c h0 hblk)] at hrec
          omega
        · rw [if_neg hblk]
          by_cases hbh : ((pyStrip h0).isEmpty) = true
          · rw [if_pos hbh] at hrec
            omega
          · rw [if_neg hbh] at hrec
            omega

theorem length_L_le_F (z : List Char) :
    (pySplitlines z).length ≤ (pySplitlines (z ++ ['\n'])).length := by
  rcases pySplitlines_append_single z with h | h <;> simp [h]

theorem length_F_le_L (z : List Char) :
    (pySplitlines (z ++ ['\n'])).length ≤ (pySplitlines z).length + 1 := by
  rcases pySplitlines_append_single z with h | h <;> rw [h] <;> simp

theorem countP_L_le_F (z : List Char) :
    List.countP (fun l => (pyStrip l).isEmpty) (pySplitlines z) ≤
      List.countP (fun l => (pyStrip l).isEmpty) (pySplitlines (z ++ ['\n'])) := by
  rcases pySplitlines_append_single z with h | h <;> rw [h]
  rw [List.countP_append]
  omega

theorem count_readIns (s : List Char) : (readIns s).count '}' = s.count '}' := by
  induction s with
  | nil => rfl
  | cons c r ih =>
    by_cases hc : c = '}'
    · subst hc
      rw [readIns_brace, List.count_cons, List.count_cons, List.count_cons, ih]
      simp
    · rw [readIns_char c _ hc, List.count_cons, List.count_cons, ih]

theorem count_joinNl (qs : List (List Char)) :
    (joinNl qs).count '}' = (qs.map (List.count '}')).sum := by
  induction qs with
  | nil => rfl
  | cons q t ih =>
    cases t with
    | nil => rw [joinNl_singleton]; simp
    | cons b t2 =>
      rw [joinNl_cons_cons, List.count_append, List.count_cons, ih]
      simp only [List.map_cons, List.sum_cons]
      rw [if_neg (by decide : ¬ ((('\n' : Char) == '}') = true))]
      omega

theorem eq_nil_of_isEmpty {l : List Char} (h : l.isEmpty = true) : l = [] := by
  cases l with
  | nil => rfl
  | cons a b => simp at h

theorem brace_not_break : isLineBreak '}' = false := by decide

theorem sum_count_pySplitlines : ∀ (s : List Char),
    ((pySplitlines s).map (List.count '}')).sum = s.count '}'
  | [] => rfl
  | [c] => by
    by_cases h1 : c = '\r'
    · subst h1; decide
    · by_cases hb : isLineBreak c = true
      · have hcj : ¬ (c = '}') := fun hh => by
          subst hh; rw [brace_not_break] at hb; exact absurd hb (by decide)
        rw [pySplitlines_break c [] hb h1]
        simp [pySplitlines, List.count_cons, hcj]
      · have hb2 : isLineBreak c = false := by simpa using hb
        rw [pySplitlines_char c [] hb2]
        simp [pySplitlines, List.count_cons]
  | c1 :: c2 :: r => by
    by_cases h1 : c1 = '\r'
    · subst h1
      by_cases h2 : c2 = '\n'
      · subst h2
        rw [pySplitlines_crlf]
        simp only [List.map_cons, List.sum_cons]
        rw [sum_count_pySplitlines r]
        rw [List.count_cons, List.count_cons]
        simp
      · rw [pySplitlines_cr_cons c2 r h2]
        simp only [List.map_cons, List.sum_cons]
        rw [sum_count_pySplitlines (c2 :: r)]
        simp [List.count_cons]
    · by_cases hb : isLineBreak c1 = true
      · have hcj : ¬ (c1 = '}') := fun hh => by
          subst hh; rw [brace_not_break] at hb; exact absurd hb (by decide)
        rw [pySplitlines_break c1 _ hb h1]
        simp only [List.map_cons, List.sum_cons]
        rw [sum_count_pySplitlines (c2 :: r)]
        simp [List.count_cons, hcj]
      · have hb2 : isLineBreak c1 = false := by simpa using hb
        rcases hx : pySplitlines (c2 :: r) with _ | ⟨h0, t0⟩
        · exact absurd ((pySplitlines_eq_nil_iff _).mp hx) (by simp)
        · rw [pySplitlines_char_cons c1 _ hb2 h0 t0 hx]
          have hrec := sum_count_pySplitlines (c2 :: r)
          rw [hx] at hrec
          simp only [List.map_cons, List.sum_cons] at hrec ⊢
          have e1 := List.count_cons '}' c1 h0
          have e2 := List.count_cons '}' c1 (c2 :: r)
          rw [e1, e2]
          omega

theorem sum_count_filter_strip (ls : List (List Char)) :
    ((((ls.map pyStrip).filter (fun l => !l.isEmpty)).map (List.count '}')).sum) =
      ((ls.map (List.count '}')).sum) := by
  induction ls with
  | nil => rfl
  | cons l t ih =>
    simp only [List.map_cons, List.filter_cons]
    by_cases hb : ((pyStrip l).isEmpty) = true
    · rw [if_neg (by simp [hb])]
      rw [ih]
      have h0 : List.count '}' l = 0 := count_eq_zero_of_blank l (eq_nil_of_isEmpty hb)
      simp [List.sum_cons, h0]
    · rw [if_pos (by simp [hb])]
      simp only [List.map_cons, List.sum_cons]
      rw [ih, count_pyStrip]

theorem length_stripLines_eq (ls : List (List Char)) :
    (((ls.map pyStrip).filter (fun l => !l.isEmpty)).length) +
      List.countP (fun l => (pyStrip l).isEmpty) ls = ls.length := by
  induction ls with
  | nil => rfl
  | cons l t ih =>
    simp only [List.map_cons, List.filter_cons, List.countP_cons]
    by_cases hb : ((pyStrip l).isEmpty) = true
    · rw [if_pos hb, if_neg (by simp [hb])]
      simp only [List.length_cons]
      omega
    · rw [if_neg hb, if_pos (by simp [hb])]
      simp only [List.length_cons]
      omega

theorem readIns_joinNl_cons_cons (p b : List Char) (t2 : List (List Char)) :
    readIns (joinNl (p :: b :: t2)) = readIns p ++ '\n' :: readIns (joinNl (b :: t2)) := by
  rw [joinNl_cons_cons, readIns_append, readIns_char '\n' _ (by decide)]

theorem lineCount_readIns_joinNl_le (qs : List (List Char))
    (h : ∀ l ∈ qs, ∀ c ∈ l, isLineBreak c = false) :
    (pySplitlines (readIns (joinNl qs))).length ≤
      (qs.map (List.count '}')).sum + qs.length := by
  induction qs with
  | nil => simp [joinNl, List.intercalate, readIns, pySplitlines]
  | cons p t ih =>
    cases t with
    | nil =>
      rw [joinNl_singleton]
      have h1 := length_L_le_F (readIns p)
      have h2 := length_F_readIns p (h p (List.mem_cons_self p _))
      simp only [List.map_cons, List.sum_cons, List.length_cons, List.map_nil,
        List.sum_nil, List.length_nil]
      omega
    | cons b t2 =>
      rw [readIns_joinNl_cons_cons, pySplitlines_append_nl]
      rw [List.length_append]
      have h2 := length_F_readIns p (h p (List.mem_cons_self p _))
      have ih2 := ih (fun l hl => h l (List.mem_cons_of_mem p hl))
      simp only [List.map_cons, List.sum_cons, List.length_cons] at ih2 ⊢
      omega

theorem lineCount_readIns_joinNl_ge (qs : List (List Char))
    (h : ∀ l ∈ qs, ∀ c ∈ l, isLineBreak c = false) :
    (qs.map (List.count '}')).sum + qs.length ≤
      (pySplitlines (readIns (joinNl qs))).length + 1 := by
  induction qs with
  | nil => simp
  | cons p t ih =>
    cases t with
    | nil =>
      rw [joinNl_singleton]
      have h1 := length_F_le_L (readIns p)
      have h2 := length_F_readIns p (h p (List.mem_cons_self p _))
      simp only [List.map_cons, List.sum_cons, List.length_cons, List.map_nil,
        List.sum_nil, List.length_nil]
      omega
    | cons b t2 =>
      rw [readIns_joinNl_cons_cons, pySplitlines_append_nl]
      rw [List.length_append]
      have h2 := length_F_readIns p (h p (List.mem_cons_self p _))
      have ih2 := ih (fun l hl => h l (List.mem_cons_of_mem p hl))
      simp only [List.map_cons, List.sum_cons, List.length_cons] at ih2 ⊢
      omega

theorem blanks_readIns_joinNl (qs : List (List Char))
    (h : ∀ l ∈ qs, (pyStrip l = l ∧ l ≠ []) ∧ ∀ c ∈ l, isLineBreak c = false) :
    List.countP (fun l => (pyStrip l).isEmpty) (pySplitlines (readIns (joinNl qs))) ≤
      (qs.map (List.count '}')).sum := by
  induction qs with
  | nil => simp [joinNl, List.intercalate, readIns, pySplitlines]
  | cons p t ih =>
    have hstr := (h p (List.mem_cons_self p _)).1.1
    have hne := (h p (List.mem_cons_self p _)).1.2
    have hbr := (h p (List.mem_cons_self p _)).2
    have hblk := blanks_F_readIns p hbr (pyStrip_getLast_not_space p hstr) hne
    cases t with
    | nil =>
      rw [joinNl_singleton]
      have h1 := countP_L_le_F (readIns p)
      simp only [List.map_cons, List.sum_cons, List.map_nil, List.sum_nil]
      omega
    | cons b t2 =>
      rw [readIns_joinNl_cons_cons, pySplitlines_append_nl]
      rw [List.countP_append]
      have ih2 := ih (fun l hl => h l (List.mem_cons_of_mem p hl))
      simp only [List.map_cons, List.sum_cons] at ih2 ⊢
      omega

theorem c9_core_readable (s : List Char) :
    lineCount (WATERMARK ++ readIns (joinNl (stripLines
        (WATERMARK ++ readIns (joinNl (stripLines s)))))) ≥
      lineCount (WATERMARK ++ readIns (joinNl (stripLines s))) := by
  set q := stripLines s with hq
  have hmem : ∀ l ∈ q, pyStrip l = l ∧ l ≠ [] ∧ ∀ c ∈ l, isLineBreak c = false :=
    fun l hl => mem_stripLines s l (hq ▸ hl)
  rw [lineCount_watermark, lineCount_watermark, stripLines_watermark]
  set q2 := stripLines (readIns (joinNl q)) with hq2
  have hmem2 : ∀ l ∈ q2, pyStrip l = l ∧ l ≠ [] ∧ ∀ c ∈ l, isLineBreak c = false :=
    fun l hl => mem_stripLines _ l (hq2 ▸ hl)
  rw [show ("/*".data :: "Cleaned by TheZ Cleaning Tool".data :: "Watermark: 'This file was processed by TheZ's Cleaning Tool'".data :: "For support and feedback, visit: https://discord.gg/zsGTqgnsmK".data :: "Version: 1.1".data :: "*/".data :: q2)
    = ["/*".data, "Cleaned by TheZ Cleaning Tool".data, "Watermark: 'This file was processed by TheZ's Cleaning Tool'".data, "For support and feedback, visit: https://discord.gg/zsGTqgnsmK".data, "Version: 1.1".data, "*/".data] ++ q2 from rfl]
  unfold lineCount
  have hBlank := blanks_readIns_joinNl q (fun l hl =>
    ⟨⟨(hmem l hl).1, (hmem l hl).2.1⟩, (hmem l hl).2.2⟩)
  have hlen : q2.length +
      List.countP (fun l => (pyStrip l).isEmpty) (pySplitlines (readIns (joinNl q))) =
      (pySplitlines (readIns (joinNl q))).length := by
    rw [hq2]
    unfold stripLines
    exact length_stripLines_eq _
  have hsum : (q2.map (List.count '}')).sum = (q.map (List.count '}')).sum := by
    rw [hq2]
    unfold stripLines
    rw [sum_count_filter_strip, sum_count_pySplitlines, count_readIns, count_joinNl]
  have hbrk2 : ∀ l ∈ (["/*".data, "Cleaned by TheZ Cleaning Tool".data, "Watermark: 'This file was processed by TheZ's Cleaning Tool'".data, "For support and feedback, visit: https://discord.gg/zsGTqgnsmK".data, "Version: 1.1".data, "*/".data] ++ q2 : List (List Char)), ∀ c ∈ l, isLineBreak c = false := by
    intro l hl
    rcases List.mem_append.mp hl with h | h
    · exact (wmStripFacts l h).2
    · exact (hmem2 l h).2.2
  have hRun := lineCount_readIns_joinNl_ge (["/*".data, "Cleaned by TheZ Cleaning Tool".data, "Watermark: 'This file was processed by TheZ's Cleaning Tool'".data, "For support and feedback, visit: https://discord.gg/zsGTqgnsmK".data, "Version: 1.1".data, "*/".data] ++ q2) hbrk2
  rw [List.map_append, List.sum_append, List.length_append] at hRun
  rw [show ((["/*".data, "Cleaned by TheZ Cleaning Tool".data, "Watermark: 'This file was processed by TheZ's Cleaning Tool'".data, "For support and feedback, visit: https://discord.gg/zsGTqgnsmK".data, "Version: 1.1".data, "*/".data] : List (List Char)).map (List.count '}')).sum = 0 from by decide,
    show (["/*".data, "Cleaned by TheZ Cleaning Tool".data, "Watermark: 'This file was processed by TheZ's Cleaning Tool'".data, "For support and feedback, visit: https://discord.gg/zsGTqgnsmK".data, "Version: 1.1".data, "*/".data] : List (List Char)).length = 6 from rfl, hsum] at hRun
  omega

/-- C9: approximate idempotence of the stylesheet pipeline — with
`remove_comments` off and `optimize_css` off (any format, any valuation of the
unused flags), running `clean_css` on its own output never reduces the line
count: no comments or blank lines remain to strip, and only the duplicated
watermark adds lines. -/
theorem c9_css_line_count_monotone :
    ∀ (fmt : CleanFormat) (rel ni mini dry : Bool) (s : List Char),
      lineCount (clean_css_content ⟨fmt, false, rel, ni, mini, false, dry⟩
          (clean_css_content ⟨fmt, false, rel, ni, mini, false, dry⟩ s)) ≥
        lineCount (clean_css_content ⟨fmt, false, rel, ni, mini, false, dry⟩ s) := by
  intro fmt rel ni mini dry s
  cases fmt with
  | compact => exact c9_core_compact s
  | readable => exact c9_core_readable s
